import Mathlib

/-!
Shallow embedding of `src/pyarrow_pandas/pyarrow_pandas_converter.py`.

The embedding models the PyArrow table abstraction at the logical-value level
(a table is an ordered list of named, typed columns; each cell is a `Value`).
PyArrow / pandas library primitives used by the source (`pc.list_flatten`,
`ChunkedArray.flatten` for structs, `pa.array` construction, `pa.table` from a
name-to-array mapping, `Table.flatten`, `Table.to_pandas` with a
`types_mapper`) are modelled as explicit Lean functions; the repository's own
functions (`flatten_all_columns`, `_build_flattened_arrays_dict`,
`_flatten_struct_field`, `_flatten_list_field`, `_flatten_map_field`,
`_generate_subfield_names`, `_validate_table_set`, `_has_nested_columns`,
`_has_struct_columns`, `flatten_struct_columns`, `to_pandas_safe`) are
translated statement by statement on top of those primitives.
-/

namespace PyArrowPandas

/-- Arrow data types, as distinguished by the source through the
`pa.types.is_struct / is_list / is_map / is_nested` predicates and the
`dtype_mapping` keys of `to_pandas_safe`.  `largeList` and `fixedSizeList`
stand for the nested arrow kinds that are nested in `pa.types.is_nested`'s
sense but are none of struct, list, map. -/
inductive ArrowType where
  | int8 | int16 | int32 | int64
  | uint8 | uint16 | uint32 | uint64
  | boolean | float32 | float64 | string
  | nullType
  | struct (fields : List (String × ArrowType))
  | list (elem : ArrowType)
  | largeList (elem : ArrowType)
  | fixedSizeList (elem : ArrowType) (size : Nat)
  | map (key value : ArrowType)

/-- Logical cell values.  A null cell (at any nesting level) is `null`; a
struct cell stores its sub-field values in field order; a map cell stores its
key/value entries in stored order (not deduplicated). -/
inductive Value where
  | null
  | int (i : Int)
  | bool (b : Bool)
  | str (s : String)
  | structV (fields : List Value)
  | listV (items : List Value)
  | mapV (entries : List (Value × Value))

/-- A named column: the pair of a schema field (name, type) and its data. -/
structure Column where
  name : String
  type : ArrowType
  data : List Value

/-- A PyArrow table: an ordered sequence of named typed columns. -/
structure Table where
  columns : List Column

/-- Array payload held in the `arrays_dict` mapping (a pyarrow array or
chunked array: its type together with its cells). -/
structure Arr where
  type : ArrowType
  data : List Value

/-- The schema of a table: its ordered (name, type) pairs, as iterated by
`for field in self._table.schema`. -/
def Table.schema (t : Table) : List (String × ArrowType) :=
  t.columns.map fun c => (c.name, c.type)

/-- Model of `self._table.column(name)`: first column with the given name
(the source only calls it with names drawn from the schema of tables whose
names are unique, where the first match is the unique match). -/
def Table.columnByName (t : Table) (n : String) : Column :=
  (t.columns.find? fun c => c.name = n).getD ⟨n, ArrowType.nullType, []⟩

/-- Model of `pa.types.is_struct`. -/
def ArrowType.isStruct : ArrowType → Bool
  | .struct _ => true
  | _ => false

/-- Model of `pa.types.is_list` (true only for the plain variable-size list
type, not for large or fixed-size lists). -/
def ArrowType.isList : ArrowType → Bool
  | .list _ => true
  | _ => false

/-- Model of `pa.types.is_map`. -/
def ArrowType.isMap : ArrowType → Bool
  | .map _ _ => true
  | _ => false

/-- Model of `pa.types.is_nested`: true for struct, all list kinds and map. -/
def ArrowType.isNested : ArrowType → Bool
  | .struct _ => true
  | .list _ => true
  | .largeList _ => true
  | .fixedSizeList _ _ => true
  | .map _ _ => true
  | _ => false

/-- Model of the pyarrow compute kernel `pc.list_flatten`: concatenates the
elements of every non-null list row in row order then within-row order; a
null list row contributes no elements; null elements inside a non-null row
are kept. -/
def listFlatten (rows : List Value) : List Value :=
  rows.foldr (fun r acc => match r with | .listV xs => xs ++ acc | _ => acc) []

/-- Model of the decomposition performed by `ChunkedArray.flatten()` on a
struct column: the i-th child array has one cell per row, the row's i-th
sub-field value, null where the struct row itself is null. -/
def structChild (i : Nat) (rows : List Value) : List Value :=
  rows.map fun r => match r with | .structV vs => vs.getD i .null | _ => .null

/-- Model of the type of `pa.array(scalars)` for a list of pyarrow scalars of
the given type: type inference is delegated to `pa.array`, which yields the
scalars' common type when the list is non-empty and the null type for an
empty list. -/
def inferScalarListType (declared : ArrowType) (xs : List Value) : ArrowType :=
  if xs.isEmpty then .nullType else declared

/-- Insert into a Python dict (`d[k] = v`): replace the value in place when
the key is already bound (keeping the key's position), append otherwise. -/
def assocInsert {κ α : Type} [DecidableEq κ] : List (κ × α) → κ → α → List (κ × α)
  | [], k, v => [(k, v)]
  | e :: es, k, v => if e.1 = k then (k, v) :: es else e :: assocInsert es k v

/-- Lookup in a Python dict (first entry with the key; entries built through
`assocInsert` have unique keys). -/
def assocLookup {κ α : Type} [DecidableEq κ] : List (κ × α) → κ → Option α
  | [], _ => none
  | e :: es, k => if e.1 = k then some e.2 else assocLookup es k

/-- Model of `dict.update(other)`: apply the writes of `other` in order. -/
def dictInsertMany (d : List (String × Arr)) (ws : List (String × Arr)) :
    List (String × Arr) :=
  ws.foldl (fun d w => assocInsert d w.1 w.2) d

/-- The `arrays_dict` built by `_build_flattened_arrays_dict`. -/
abbrev ArraysDict := List (String × Arr)

/-- The error kinds observable from the modelled operations: `invalidState`
is the `ValueError` of `_validate_table_set`; `mapNullLen` is the `TypeError`
raised by `len(map_array[i])` when the scalar at `i` is null; and
`lengthMismatch` is the `ArrowInvalid` raised by `pa.table` when the arrays
of the mapping do not all have the same length. -/
inductive FlattenError where
  | invalidState
  | mapNullLen
  | lengthMismatch
  deriving DecidableEq, Repr

/-- Translation of `_generate_subfield_names` (lines 235-251): composite
names join parent and sub-field name with a single `.`; otherwise the bare
sub-field names are used. -/
def generateSubfieldNames (fieldName : String) (subs : List (String × ArrowType))
    (compositeNames : Bool) : List String :=
  if compositeNames then subs.map fun sub => fieldName ++ "." ++ sub.1
  else subs.map fun sub => sub.1

/-- The child arrays returned by `self._table.column(field.name).flatten()`
for a struct column: one `Arr` per sub-field, carrying the sub-field's type. -/
def structChildArrs (rows : List Value) (subs : List (String × ArrowType)) : List Arr :=
  (List.range subs.length).map fun i =>
    ⟨(subs.getD i ("", ArrowType.nullType)).2, structChild i rows⟩

/-- Translation of `_flatten_struct_field` (lines 173-188):
`dict(zip(subfield_names, flattened_columns))`, given here as the write list
in zip order (applying the writes in order has exactly the Python dict
semantics for duplicate names). -/
def flattenStructField (t : Table) (fieldName : String)
    (subs : List (String × ArrowType)) (compositeNames : Bool) : List (String × Arr) :=
  (generateSubfieldNames fieldName subs compositeNames).zip
    (structChildArrs (t.columnByName fieldName).data subs)

/-- Translation of `_flatten_list_field` (lines 190-201): a single write of
the `pc.list_flatten` result under the original field name. -/
def flattenListField (t : Table) (fieldName : String) (elemType : ArrowType) :
    List (String × Arr) :=
  [(fieldName, ⟨elemType, listFlatten (t.columnByName fieldName).data⟩)]

/-- Translation of the row loop of `_flatten_map_field` (lines 221-225).
`map_array[i]` is a pyarrow scalar, never the Python `None`, so the guard
`if map_array[i] is not None` is always taken; `len(map_array[i])` on a null
map scalar then raises `TypeError` (len of `None`), modelled as
`mapNullLen`.  A non-null row appends its keys and values in stored order. -/
def mapCollect : List Value → Except FlattenError (List Value × List Value)
  | [] => .ok ([], [])
  | .mapV entries :: rest => do
      let (ks, vs) ← mapCollect rest
      .ok (entries.map Prod.fst ++ ks, entries.map Prod.snd ++ vs)
  | _ :: _ => .error .mapNullLen

/-- Translation of `_flatten_map_field` (lines 203-233): collect all keys and
values, then write two columns named `keys`/`values`, prefixed with
`{field.name}.` when `composite_names` is set; the two arrays are built by
`pa.array` with delegated type inference. -/
def flattenMapField (t : Table) (fieldName : String) (keyType valType : ArrowType)
    (compositeNames : Bool) : Except FlattenError (List (String × Arr)) := do
  let (ks, vs) ← mapCollect (t.columnByName fieldName).data
  let pfx := if compositeNames then fieldName ++ "." else ""
  .ok [(pfx ++ "keys", ⟨inferScalarListType keyType ks, ks⟩),
       (pfx ++ "values", ⟨inferScalarListType valType vs, vs⟩)]

/-- One iteration of the `for field in self._table.schema` loop of
`_build_flattened_arrays_dict` (lines 161-171): copy the column when it is
not nested or `keep_nested_columns` is set, then update the dict with the
struct / list / map expansion of the field, if any. -/
def processField (t : Table) (compositeNames keepNested : Bool) (d : ArraysDict)
    (f : String × ArrowType) : Except FlattenError ArraysDict := do
  let d := if !f.2.isNested || keepNested then
      assocInsert d f.1 ⟨f.2, (t.columnByName f.1).data⟩
    else d
  match f.2 with
  | .struct subs => .ok (dictInsertMany d (flattenStructField t f.1 subs compositeNames))
  | .list elemType => .ok (dictInsertMany d (flattenListField t f.1 elemType))
  | .map keyType valType => do
      .ok (dictInsertMany d (← flattenMapField t f.1 keyType valType compositeNames))
  | _ => .ok d

/-- Translation of `_build_flattened_arrays_dict` (lines 148-171): fold the
per-field processing over the schema, starting from the empty dict. -/
def buildFlattenedArraysDict (t : Table) (compositeNames keepNested : Bool) :
    Except FlattenError ArraysDict :=
  t.schema.foldlM (processField t compositeNames keepNested) []

/-- Model of `pa.table(arrays_dict)`: fails when the arrays do not all have
one common length, otherwise produces the table with the dict's columns in
dict order. -/
def paTable (d : ArraysDict) : Except FlattenError Table :=
  match d with
  | [] => .ok ⟨[]⟩
  | e :: _ =>
    if d.all fun w => w.2.data.length = e.2.data.length then
      .ok ⟨d.map fun w => ⟨w.1, w.2.type, w.2.data⟩⟩
    else .error .lengthMismatch

/-- Translation of `_flatten_nested_columns` (lines 127-146): build the
arrays dict and construct a table from it (the perf log line is emitted by
the caller model, see `flattenAllLoop`). -/
def flattenNestedColumns (t : Table) (compositeNames keepNested : Bool) :
    Except FlattenError Table := do
  paTable (← buildFlattenedArraysDict t compositeNames keepNested)

/-- Translation of `_has_nested_columns` (lines 118-125). -/
def hasNestedColumns (t : Table) : Bool :=
  t.columns.any fun c => c.type.isNested

/-- Translation of `_has_struct_columns` (lines 109-116). -/
def hasStructColumns (t : Table) : Bool :=
  t.columns.any fun c => c.type.isStruct

/-- Levels of the log lines emitted through `logger`. -/
inductive LogLevel where
  | info
  | error
  deriving DecidableEq, Repr

/-- One emitted log line. -/
structure LogEntry where
  level : LogLevel
  msg : String
  deriving DecidableEq, Repr

/-- Outcome of one of the looping operations: the returned table, a raised
error, or — since the source's `while` loop has no bound of its own — the
given pass budget (fuel) being exhausted with nested columns still present.
The loop of the source terminates on a table exactly when some finite fuel
avoids `fuelOut`. -/
inductive LoopResult where
  | ok (t : Table)
  | err (e : FlattenError)
  | fuelOut

/-- Translation of the `while self._has_nested_columns()` loop of
`flatten_all_columns` (lines 66-74), with explicit fuel.  Returns the loop
outcome, the held table reference `self._table` at exit (the table of the
last successful pass when an error escapes), and the emitted log lines. -/
def flattenAllLoop (recursive compositeNames keepNested : Bool) :
    Nat → Table → LoopResult × Table × List LogEntry
  | fuel, t =>
    if hasNestedColumns t then
      match fuel with
      | 0 => (.fuelOut, t, [])
      | fuel + 1 =>
        let line : LogEntry :=
          ⟨.info, "Flattening table with " ++ toString t.columns.length ++ " columns."⟩
        match flattenNestedColumns t compositeNames keepNested with
        | .error e => (.err e, t, [line])
        | .ok t2 =>
          let perf : LogEntry := ⟨.info, "Time to flatten table."⟩
          if recursive then
            let r := flattenAllLoop recursive compositeNames keepNested fuel t2
            (r.1, r.2.1, line :: perf :: r.2.2)
          else (.ok t2, t2, [line, perf])
    else (.ok t, t, [])

/-- The flattener object: its single piece of state is the optional held
table (`self._table`). -/
structure PyArrowTableFlattener where
  table : Option Table

/-- Translation of `set_table` (lines 40-47). -/
def setTable (_fl : PyArrowTableFlattener) (t : Table) : PyArrowTableFlattener :=
  ⟨some t⟩

/-- Translation of `flatten_all_columns` (lines 49-74), including the
`_validate_table_set` guard (lines 98-107): with no table set, an error log
line is emitted and the `ValueError` (`invalidState`) is raised, leaving the
state unchanged; otherwise the loop runs and the held reference is replaced
after every successful pass. -/
def flattenAllColumns (fl : PyArrowTableFlattener)
    (recursive compositeNames keepNested : Bool) (fuel : Nat) :
    LoopResult × PyArrowTableFlattener × List LogEntry :=
  match fl.table with
  | none => (.err .invalidState, fl, [⟨.error, "No table set for flattening."⟩])
  | some t =>
    let r := flattenAllLoop recursive compositeNames keepNested fuel t
    (r.1, ⟨some r.2.1⟩, r.2.2)

/-- Model of the native `pa.Table.flatten()` used by `flatten_struct_columns`:
each struct column is expanded in place into one column per sub-field, named
`parent.subfield`, with parent nulls propagated; all other columns are kept. -/
def nativeFlattenColumn (c : Column) : List Column :=
  match c.type with
  | .struct subs =>
      (List.range subs.length).map fun i =>
        ⟨c.name ++ "." ++ (subs.getD i ("", ArrowType.nullType)).1,
         (subs.getD i ("", ArrowType.nullType)).2, structChild i c.data⟩
  | _ => [c]

/-- Model of `self._table.flatten()` over a whole table. -/
def tableFlatten (t : Table) : Table :=
  ⟨(t.columns.map nativeFlattenColumn).flatten⟩

/-- Translation of the `while self._has_struct_columns()` loop of
`flatten_struct_columns` (lines 87-94), with explicit fuel. -/
def flattenStructLoop (recursive : Bool) : Nat → Table → LoopResult × Table × List LogEntry
  | fuel, t =>
    if hasStructColumns t then
      match fuel with
      | 0 => (.fuelOut, t, [])
      | fuel + 1 =>
        let line : LogEntry :=
          ⟨.info, "Flattening struct columns in table with " ++
            toString t.columns.length ++ " columns."⟩
        let t2 := tableFlatten t
        if recursive then
          let r := flattenStructLoop recursive fuel t2
          (r.1, r.2.1, line :: r.2.2)
        else (.ok t2, t2, [line])
    else (.ok t, t, [])

/-- Translation of `flatten_struct_columns` (lines 76-94), including the
`_validate_table_set` guard. -/
def flattenStructColumns (fl : PyArrowTableFlattener) (recursive : Bool) (fuel : Nat) :
    LoopResult × PyArrowTableFlattener × List LogEntry :=
  match fl.table with
  | none => (.err .invalidState, fl, [⟨.error, "No table set for flattening."⟩])
  | some t =>
    let r := flattenStructLoop recursive fuel t
    (r.1, ⟨some r.2.1⟩, r.2.2)

/-- The nullable pandas extension dtypes appearing as values of
`dtype_mapping` in `to_pandas_safe` (lines 293-307). -/
inductive PandasDtype where
  | Int8 | Int16 | Int32 | Int64
  | UInt8 | UInt16 | UInt32 | UInt64
  | Boolean | Float32 | Float64 | StringDtype
  deriving DecidableEq, Repr

/-- A key of the Python dict `dtype_mapping`: twelve concrete primitive
arrow type instances, plus — as written in the source — `pa.map_`, which is
the map type *constructor function*, not a data type instance. -/
inductive DtypeKey where
  | typ (t : ArrowType)
  | mapConstructorFunction

/-- A value of the Python dict `dtype_mapping`: a pandas extension dtype, or
the function object `map_to_dict` stored under the `pa.map_` key. -/
inductive DtypeTarget where
  | dtype (d : PandasDtype)
  | mapToDictFunction

/-- The `dtype_mapping` dict of `to_pandas_safe` (lines 293-307), in source
order. -/
def dtypeMapping : List (DtypeKey × DtypeTarget) :=
  [(.typ .int8, .dtype .Int8),
   (.typ .int16, .dtype .Int16),
   (.typ .int32, .dtype .Int32),
   (.typ .int64, .dtype .Int64),
   (.typ .uint8, .dtype .UInt8),
   (.typ .uint16, .dtype .UInt16),
   (.typ .uint32, .dtype .UInt32),
   (.typ .uint64, .dtype .UInt64),
   (.typ .boolean, .dtype .Boolean),
   (.typ .float32, .dtype .Float32),
   (.typ .float64, .dtype .Float64),
   (.typ .string, .dtype .StringDtype),
   (.mapConstructorFunction, .mapToDictFunction)]

/-- Python `==` between a `dtype_mapping` key and the arrow data type of a
column, as evaluated during `dtype_mapping.get(t)`: each of the thirteen
concrete keys matches exactly the equal data type instance, and the
`pa.map_` function object equals no data type. -/
def dtypeKeyMatches (k : DtypeKey) (ty : ArrowType) : Bool :=
  match k, ty with
  | .typ .int8, .int8 => true
  | .typ .int16, .int16 => true
  | .typ .int32, .int32 => true
  | .typ .int64, .int64 => true
  | .typ .uint8, .uint8 => true
  | .typ .uint16, .uint16 => true
  | .typ .uint32, .uint32 => true
  | .typ .uint64, .uint64 => true
  | .typ .boolean, .boolean => true
  | .typ .float32, .float32 => true
  | .typ .float64, .float64 => true
  | .typ .string, .string => true
  | _, _ => false

/-- Model of `dtype_mapping.get`, the `types_mapper` passed to `to_pandas`:
looked up with the arrow data type of each column. -/
def dtypeMappingGet (ty : ArrowType) : Option DtypeTarget :=
  (dtypeMapping.find? fun e => dtypeKeyMatches e.1 ty).map fun e => e.2

/-- A cell of the resulting pandas dataframe: the missing-value marker `NA`
of a nullable extension dtype, a scalar held under a nullable extension
dtype, a cell produced by the library's default (`types_mapper`-less)
conversion, or a Python dict (what the spec's map handler would produce; no
reachable path of the source builds one). -/
inductive PdValue where
  | NA
  | scalar (d : PandasDtype) (v : Value)
  | defaultObj (v : Value)
  | pyDict (entries : List (Value × Value))

/-- One column (series) of the resulting pandas dataframe. -/
structure PdSeries where
  name : String
  cells : List PdValue

/-- Conversion of one column under a nullable pandas extension dtype: every
null cell becomes the proper missing-value marker `NA`, every other cell the
typed scalar — no sentinel and no float upcast. -/
def nullableConvert (d : PandasDtype) (xs : List Value) : List PdValue :=
  xs.map fun v => match v with | .null => .NA | v => .scalar d v

/-- The library's default conversion of one column, applied when the
`types_mapper` returns `None` for the column's type: each stored cell is
turned into its default Python/numpy representation, kept abstract here as
`defaultObj` around the stored value (for a map cell this is the stored
key/value-pair sequence, not a dict). -/
def defaultConvert (xs : List Value) : List PdValue :=
  xs.map fun v => .defaultObj v

/-- Conversion of a single column by `table.to_pandas(types_mapper=...)`:
a hit in the mapping giving an extension dtype uses the nullable conversion;
a miss falls back to the default conversion.  (The `mapToDictFunction`
branch is unreachable: `dtypeMappingGet` never returns it, see
`dtypeMappingGet_ne_mapToDict`.) -/
def toPandasSafeColumn (c : Column) : PdSeries :=
  match dtypeMappingGet c.type with
  | some (.dtype d) => ⟨c.name, nullableConvert d c.data⟩
  | some .mapToDictFunction => ⟨c.name, defaultConvert c.data⟩
  | none => ⟨c.name, defaultConvert c.data⟩

/-- Translation of `to_pandas_safe` (lines 283-309). -/
def toPandasSafe (t : Table) : List PdSeries :=
  t.columns.map toPandasSafeColumn

mutual

/-- Nesting depth of an arrow type: 0 for non-nested types, one more than
the deepest child for struct/list/map kinds.  This is the measure the spec's
termination argument appeals to. -/
def ArrowType.depth : ArrowType → Nat
  | .int8 => 0
  | .int16 => 0
  | .int32 => 0
  | .int64 => 0
  | .uint8 => 0
  | .uint16 => 0
  | .uint32 => 0
  | .uint64 => 0
  | .boolean => 0
  | .float32 => 0
  | .float64 => 0
  | .string => 0
  | .nullType => 0
  | .struct fs => 1 + fieldsDepth fs
  | .list e => 1 + e.depth
  | .largeList e => 1 + e.depth
  | .fixedSizeList e _ => 1 + e.depth
  | .map keyType valType => 1 + Nat.max keyType.depth valType.depth

/-- Deepest nesting depth among a struct's sub-fields. -/
def fieldsDepth : List (String × ArrowType) → Nat
  | [] => 0
  | f :: fs => Nat.max f.2.depth (fieldsDepth fs)

end

/-- Nesting depth of a table's schema: the deepest column type. -/
def schemaDepth (t : Table) : Nat :=
  t.columns.foldr (fun c n => Nat.max c.type.depth n) 0

/-- The loop of `flatten_all_columns` terminates on a table (under the given
flags) when some finite number of passes leaves the `while` condition false
or raises — that is, when some fuel avoids `fuelOut`. -/
def flattenTerminates (recursive compositeNames keepNested : Bool) (t : Table) : Prop :=
  ∃ fuel, (flattenAllLoop recursive compositeNames keepNested fuel t).1 ≠ LoopResult.fuelOut

mutual

/-- Structural equality on values, standing for Python `==` between the
(scalar) keys of a map when a dict is built from its entries. -/
def Value.beq : Value → Value → Bool
  | .null, .null => true
  | .int i, .int j => i == j
  | .bool a, .bool b => a == b
  | .str a, .str b => a == b
  | .structV a, .structV b => valueListBeq a b
  | .listV a, .listV b => valueListBeq a b
  | .mapV a, .mapV b => valuePairListBeq a b
  | _, _ => false

/-- Structural equality on value lists. -/
def valueListBeq : List Value → List Value → Bool
  | [], [] => true
  | a :: as, b :: bs => a.beq b && valueListBeq as bs
  | _, _ => false

/-- Structural equality on value-pair lists. -/
def valuePairListBeq : List (Value × Value) → List (Value × Value) → Bool
  | [], [] => true
  | a :: as, b :: bs => a.1.beq b.1 && a.2.beq b.2 && valuePairListBeq as bs
  | _, _ => false

end

/-- Modelled from the spec: a Python dict built from a sequence of key/value
pairs (`dict(...)`): ordinary mapping construction, where a duplicate key
keeps its first position and the last-seen value wins. -/
def pyDictOfPairs (entries : List (Value × Value)) : List (Value × Value) :=
  entries.foldl
    (fun d e =>
      if d.any fun p => p.1.beq e.1 then
        d.map fun p => if p.1.beq e.1 then (p.1, e.2) else p
      else d ++ [e])
    []

/-- Modelled from the spec (§4.2): the conversion the spec prescribes for a
map-typed column reaching `to_pandas_safe` — each row's stored
key/value-pair sequence becomes one language-level dict, duplicate keys
collapsing to the last-seen value; a null row stays a missing value. -/
def specMapColumnToDicts (rows : List Value) : List PdValue :=
  rows.map fun r => match r with
    | .mapV entries => .pyDict (pyDictOfPairs entries)
    | _ => .NA

/-! Lemmas about the Python-dict model. -/

theorem assocLookup_insert_self {κ α : Type} [DecidableEq κ] (d : List (κ × α))
    (k : κ) (v : α) : assocLookup (assocInsert d k v) k = some v := by
  induction d with
  | nil => simp [assocInsert, assocLookup]
  | cons e es ih =>
    by_cases he : e.1 = k
    · simp [assocInsert, assocLookup, he]
    · simp [assocInsert, assocLookup, he, ih]

theorem assocLookup_insert_ne {κ α : Type} [DecidableEq κ] (d : List (κ × α))
    (k k' : κ) (v : α) (h : k' ≠ k) :
    assocLookup (assocInsert d k v) k' = assocLookup d k' := by
  have hkk : ¬ k = k' := fun hh => h hh.symm
  induction d with
  | nil => simp [assocInsert, assocLookup, hkk]
  | cons e es ih =>
    by_cases he : e.1 = k
    · have he' : ¬ e.1 = k' := fun hh => hkk (he.symm.trans hh)
      simp [assocInsert, assocLookup, he, he', hkk]
    · simp [assocInsert, assocLookup, he, ih]

theorem mem_assocInsert {κ α : Type} [DecidableEq κ] {d : List (κ × α)}
    {k : κ} {v : α} {e : κ × α} (h : e ∈ assocInsert d k v) :
    e = (k, v) ∨ e ∈ d := by
  induction d with
  | nil => simpa [assocInsert] using h
  | cons x xs ih =>
    by_cases hx : x.1 = k
    · simp only [assocInsert, if_pos hx, List.mem_cons] at h
      rcases h with h | h
      · exact Or.inl h
      · exact Or.inr (List.mem_cons_of_mem _ h)
    · simp only [assocInsert, if_neg hx, List.mem_cons] at h
      rcases h with h | h
      · exact Or.inr (h ▸ List.mem_cons_self _ _)
      · rcases ih h with h' | h'
        · exact Or.inl h'
        · exact Or.inr (List.mem_cons_of_mem _ h')

/-- The last value written to a key by an in-order sequence of dict writes. -/
def lastWrite : List (String × Arr) → String → Option Arr
  | [], _ => none
  | w :: ws, s =>
    match lastWrite ws s with
    | some v => some v
    | none => if w.1 = s then some w.2 else none

theorem assocLookup_dictInsertMany (d : ArraysDict) (ws : List (String × Arr))
    (s : String) :
    assocLookup (dictInsertMany d ws) s =
      match lastWrite ws s with
      | some v => some v
      | none => assocLookup d s := by
  induction ws generalizing d with
  | nil => rfl
  | cons w ws ih =>
    show assocLookup (dictInsertMany (assocInsert d w.1 w.2) ws) s = _
    rw [ih]
    rcases hlw : lastWrite ws s with _ | v
    · by_cases hw : w.1 = s
      · subst hw
        rw [assocLookup_insert_self]
        simp [lastWrite, hlw]
      · rw [assocLookup_insert_ne _ _ _ _ (fun hh => hw hh.symm)]
        simp [lastWrite, hlw, hw]
    · simp [lastWrite, hlw]

theorem mem_dictInsertMany {d : ArraysDict} {ws : List (String × Arr)}
    {e : String × Arr} (h : e ∈ dictInsertMany d ws) : e ∈ ws ∨ e ∈ d := by
  induction ws generalizing d with
  | nil => exact Or.inr h
  | cons w ws ih =>
    rcases ih (d := assocInsert d w.1 w.2) h with h' | h'
    · exact Or.inl (List.mem_cons_of_mem _ h')
    · rcases mem_assocInsert h' with h'' | h''
      · exact Or.inl (h'' ▸ List.mem_cons_self _ _)
      · exact Or.inr h''

theorem lastWrite_append (ws1 ws2 : List (String × Arr)) (s : String) :
    lastWrite (ws1 ++ ws2) s =
      match lastWrite ws2 s with
      | some v => some v
      | none => lastWrite ws1 s := by
  induction ws1 with
  | nil => rcases hlw : lastWrite ws2 s with _ | v <;> simp [lastWrite, hlw]
  | cons w ws ih =>
    show lastWrite (w :: (ws ++ ws2)) s = _
    rw [lastWrite, ih]
    rcases hlw2 : lastWrite ws2 s with _ | v2 <;>
      rcases hlw1 : lastWrite ws s with _ | v1 <;> simp [lastWrite, hlw1]

theorem lastWrite_eq_none (ws : List (String × Arr)) (s : String)
    (h : ∀ w ∈ ws, w.1 ≠ s) : lastWrite ws s = none := by
  induction ws with
  | nil => rfl
  | cons w ws ih =>
    rw [lastWrite, ih (fun x hx => h x (List.mem_cons_of_mem _ hx))]
    simp [h w (List.mem_cons_self _ _)]

theorem lastWrite_of_nodup {ws : List (String × Arr)} {s : String} {a : Arr}
    (hnd : (ws.map fun w => w.1).Nodup) (hmem : (s, a) ∈ ws) :
    lastWrite ws s = some a := by
  induction ws with
  | nil => exact absurd hmem (List.not_mem_nil _)
  | cons w ws ih =>
    simp only [List.map_cons, List.nodup_cons] at hnd
    rcases List.mem_cons.mp hmem with h | h
    · have hnone : lastWrite ws s = none := by
        apply lastWrite_eq_none
        intro x hx hxs
        apply hnd.1
        have : w.1 = s := by rw [← h]
        rw [this, ← hxs]
        exact List.mem_map.mpr ⟨x, hx, rfl⟩
      rw [lastWrite, hnone, ← h]
      simp
    · rw [lastWrite, ih hnd.2 h]

/-! Decomposition of `_build_flattened_arrays_dict` into the ordered list of
dict writes each field performs: the copy write (when applicable) followed by
the writes of the struct/list/map expansion. -/

/-- The dict writes performed while processing one schema field. -/
def fieldWrites (t : Table) (compositeNames keepNested : Bool) (f : String × ArrowType) :
    Except FlattenError (List (String × Arr)) := do
  let copies : List (String × Arr) :=
    if !f.2.isNested || keepNested then [(f.1, ⟨f.2, (t.columnByName f.1).data⟩)]
    else []
  let branch ←
    match f.2 with
    | .struct subs => .ok (flattenStructField t f.1 subs compositeNames)
    | .list elemType => .ok (flattenListField t f.1 elemType)
    | .map keyType valType => flattenMapField t f.1 keyType valType compositeNames
    | _ => (.ok [] : Except FlattenError (List (String × Arr)))
  .ok (copies ++ branch)

/-- The names that processing one schema field writes (when it succeeds);
they depend only on the field and the flags, not on the data. -/
def fieldWriteNames (compositeNames keepNested : Bool) (f : String × ArrowType) :
    List String :=
  (if !f.2.isNested || keepNested then [f.1] else []) ++
  (match f.2 with
   | .struct subs => generateSubfieldNames f.1 subs compositeNames
   | .list _ => [f.1]
   | .map _ _ => [(if compositeNames then f.1 ++ "." else "") ++ "keys",
                  (if compositeNames then f.1 ++ "." else "") ++ "values"]
   | _ => [])

theorem processField_eq (t : Table) (c k : Bool) (d : ArraysDict)
    (f : String × ArrowType) :
    processField t c k d f = (fieldWrites t c k f).map (dictInsertMany d) := by
  rcases f with ⟨n, ty⟩
  cases ty <;> try (cases k <;> rfl)
  rename_i kt vt
  cases k <;> rcases hm : flattenMapField t n kt vt c with e | ws <;>
    simp [processField, fieldWrites, hm, dictInsertMany, Except.map, Except.bind, bind,
      ArrowType.isNested]

/-- The concatenated dict writes of a list of schema fields, in schema
order. -/
def fieldsWrites (t : Table) (compositeNames keepNested : Bool) :
    List (String × ArrowType) → Except FlattenError (List (String × Arr))
  | [] => .ok []
  | f :: fs => do
      .ok ((← fieldWrites t compositeNames keepNested f) ++
           (← fieldsWrites t compositeNames keepNested fs))

theorem foldlM_processField_eq (t : Table) (c k : Bool)
    (fs : List (String × ArrowType)) (d : ArraysDict) :
    fs.foldlM (processField t c k) d = (fieldsWrites t c k fs).map (dictInsertMany d) := by
  induction fs generalizing d with
  | nil => rfl
  | cons f fs ih =>
    rw [List.foldlM_cons, processField_eq]
    rcases hf : fieldWrites t c k f with e | ws
    · simp [fieldsWrites, hf, Except.map, Except.bind, bind]
    · show List.foldlM (processField t c k) (dictInsertMany d ws) fs =
        Except.map (dictInsertMany d) (fieldsWrites t c k (f :: fs))
      rw [ih]
      rcases hfs : fieldsWrites t c k fs with e2 | ws2 <;>
        simp [fieldsWrites, hf, hfs, Except.map, Except.bind, bind, dictInsertMany,
          List.foldl_append]

theorem buildFlattenedArraysDict_eq (t : Table) (c k : Bool) :
    buildFlattenedArraysDict t c k =
      (fieldsWrites t c k t.schema).map (dictInsertMany []) :=
  foldlM_processField_eq t c k t.schema []

theorem fieldsWrites_append (t : Table) (c k : Bool)
    (fs1 fs2 : List (String × ArrowType)) :
    fieldsWrites t c k (fs1 ++ fs2) =
      (fieldsWrites t c k fs1).bind fun a =>
        (fieldsWrites t c k fs2).map fun b => a ++ b := by
  induction fs1 with
  | nil =>
    rcases h2 : fieldsWrites t c k fs2 with e | ws <;>
      simp [fieldsWrites, h2, Except.bind, bind] <;> try rfl
  | cons f fs ih =>
    show fieldsWrites t c k (f :: (fs ++ fs2)) = _
    rcases hf : fieldWrites t c k f with e | ws
    · simp [fieldsWrites, hf, Except.bind, bind]
    · rcases h1 : fieldsWrites t c k fs with e1 | ws1 <;>
        rcases h2 : fieldsWrites t c k fs2 with e2 | ws2 <;>
          simp [fieldsWrites, hf, h1, h2, ih, Except.bind, bind, List.append_assoc] <;>
            try rfl

/-- When processing a field succeeds, the names it writes are exactly
`fieldWriteNames`. -/
theorem map_fst_flattenStructField (t : Table) (n : String)
    (subs : List (String × ArrowType)) (c : Bool) :
    (flattenStructField t n subs c).map (fun w => w.1) =
      generateSubfieldNames n subs c := by
  have hlen : (generateSubfieldNames n subs c).length = subs.length := by
    unfold generateSubfieldNames; split <;> simp
  have hlen2 : (structChildArrs (t.columnByName n).data subs).length = subs.length := by
    simp [structChildArrs]
  exact List.map_fst_zip _ _ (by rw [hlen, hlen2])

theorem fieldWrites_names (t : Table) (c k : Bool) (f : String × ArrowType)
    (ws : List (String × Arr)) (h : fieldWrites t c k f = .ok ws) :
    ws.map (fun w => w.1) = fieldWriteNames c k f := by
  rcases f with ⟨n, ty⟩
  cases ty
  case struct subs =>
    cases k <;>
      · cases h
        simp [fieldWriteNames, ArrowType.isNested, map_fst_flattenStructField]
  case map kt vt =>
    rcases hm : mapCollect (t.columnByName n).data with e | kv
    · cases k <;>
        simp [fieldWrites, flattenMapField, hm, Except.bind, bind] at h
    · cases k <;>
        · simp only [fieldWrites, flattenMapField, hm, Except.bind, bind,
            ArrowType.isNested, Bool.not_true, Bool.false_or, Bool.not_false,
            Bool.true_or] at h
          cases h
          rfl
  all_goals (cases k <;> (cases h; rfl))

/-! Depth lemmas: a pass with `keep_nested_columns = false` strictly reduces
the schema's nesting depth. -/

theorem depth_eq_zero_of_not_nested {ty : ArrowType} (h : ty.isNested = false) :
    ty.depth = 0 := by
  cases ty <;> simp [ArrowType.isNested] at h <;> simp [ArrowType.depth]

theorem one_le_depth_of_isNested {ty : ArrowType} (h : ty.isNested = true) :
    1 ≤ ty.depth := by
  cases ty <;> simp [ArrowType.isNested] at h <;> simp [ArrowType.depth]

theorem depth_le_fieldsDepth {subs : List (String × ArrowType)}
    {sub : String × ArrowType} (h : sub ∈ subs) : sub.2.depth ≤ fieldsDepth subs := by
  induction subs with
  | nil => exact absurd h (List.not_mem_nil _)
  | cons x xs ih =>
    rw [fieldsDepth]
    rcases List.mem_cons.mp h with h | h
    · rw [h]; exact Nat.le_max_left _ _
    · exact Nat.le_trans (ih h) (Nat.le_max_right _ _)

theorem depth_le_schemaDepth {t : Table} {col : Column} (h : col ∈ t.columns) :
    col.type.depth ≤ schemaDepth t := by
  rcases t with ⟨cols⟩
  induction cols with
  | nil => exact absurd h (List.not_mem_nil _)
  | cons x xs ih =>
    show col.type.depth ≤ Nat.max x.type.depth (schemaDepth ⟨xs⟩)
    rcases List.mem_cons.mp h with h | h
    · rw [h]; exact Nat.le_max_left _ _
    · exact Nat.le_trans (ih h) (Nat.le_max_right _ _)

theorem one_le_schemaDepth_of_hasNested {t : Table} (h : hasNestedColumns t = true) :
    1 ≤ schemaDepth t := by
  rcases List.any_eq_true.mp h with ⟨col, hmem, hcol⟩
  exact Nat.le_trans (one_le_depth_of_isNested hcol) (depth_le_schemaDepth hmem)

theorem schemaDepth_le_of_forall {cols : List Column} {m : Nat}
    (h : ∀ col ∈ cols, col.type.depth ≤ m) : schemaDepth ⟨cols⟩ ≤ m := by
  induction cols with
  | nil => exact Nat.zero_le m
  | cons x xs ih =>
    show Nat.max x.type.depth (schemaDepth ⟨xs⟩) ≤ m
    exact Nat.max_le.mpr ⟨h x (List.mem_cons_self _ _),
      ih fun col hc => h col (List.mem_cons_of_mem _ hc)⟩

/-- With `keep_nested_columns = false`, every array a field writes has a type
strictly less deep than the schema (assuming there is a nested column at
all, which is what makes the loop take a pass). -/
theorem fieldWrites_depth_lt {t : Table} {c : Bool} {f : String × ArrowType}
    {ws : List (String × Arr)} {w : String × Arr}
    (hn : hasNestedColumns t = true) (hf : f ∈ t.schema)
    (hws : fieldWrites t c false f = .ok ws) (hw : w ∈ ws) :
    w.2.type.depth + 1 ≤ schemaDepth t := by
  have hfd : f.2.depth ≤ schemaDepth t := by
    rcases List.mem_map.mp hf with ⟨col, hcol, heq⟩
    rw [← heq]
    exact depth_le_schemaDepth hcol
  rcases f with ⟨n, ty⟩
  cases ty
  case struct subs =>
    cases hws
    rcases List.mem_append.mp hw with h | h
    · simp [ArrowType.isNested] at h
    · have h2 := (List.of_mem_zip h).2
      rcases List.mem_map.mp h2 with ⟨i, hi, harr⟩
      have hilt : i < subs.length := List.mem_range.mp hi
      have hmem : subs.getD i ("", ArrowType.nullType) ∈ subs := by
        rw [List.getD_eq_getElem _ _ hilt]
        exact List.getElem_mem _
      have : w.2.type.depth ≤ fieldsDepth subs := by
        rw [← harr]
        exact depth_le_fieldsDepth hmem
      have hsd : 1 + fieldsDepth subs ≤ schemaDepth t := by
        rw [ArrowType.depth] at hfd
        exact hfd
      omega
  case list elemType =>
    cases hws
    rcases List.mem_append.mp hw with h | h
    · simp [ArrowType.isNested] at h
    · rcases List.mem_singleton.mp h with rfl
      rw [ArrowType.depth] at hfd
      show ArrowType.depth elemType + 1 ≤ schemaDepth t
      omega
  case largeList elemType =>
    cases hws
    rcases List.mem_append.mp hw with h | h
    · simp [ArrowType.isNested] at h
    · exact absurd h (List.not_mem_nil _)
  case fixedSizeList elemType sz =>
    cases hws
    rcases List.mem_append.mp hw with h | h
    · simp [ArrowType.isNested] at h
    · exact absurd h (List.not_mem_nil _)
  case map keyType valType =>
    rcases hm : mapCollect (t.columnByName n).data with e | kv
    · simp [fieldWrites, flattenMapField, hm, Except.bind, bind] at hws
    · simp only [fieldWrites, flattenMapField, hm, Except.bind, bind,
        ArrowType.isNested, Bool.not_true, Bool.false_or] at hws
      cases hws
      rw [ArrowType.depth] at hfd
      have hk : (inferScalarListType keyType kv.1).depth ≤
          Nat.max keyType.depth valType.depth := by
        unfold inferScalarListType
        split
        · simp [ArrowType.depth]
        · exact Nat.le_max_left _ _
      have hv : (inferScalarListType valType kv.2).depth ≤
          Nat.max keyType.depth valType.depth := by
        unfold inferScalarListType
        split
        · simp [ArrowType.depth]
        · exact Nat.le_max_right _ _
      rcases List.mem_append.mp hw with h | h
      · simp at h
      · rcases List.mem_cons.mp h with h1 | h1
        · rw [h1]
          show (inferScalarListType keyType kv.1).depth + 1 ≤ schemaDepth t
          omega
        · rcases List.mem_singleton.mp h1 with rfl
          show (inferScalarListType valType kv.2).depth + 1 ≤ schemaDepth t
          omega
  all_goals
    cases hws
    rcases List.mem_append.mp hw with h | h
    · rcases List.mem_singleton.mp h with rfl
      have h1 := one_le_schemaDepth_of_hasNested hn
      simpa [ArrowType.depth] using h1
    · exact absurd h (List.not_mem_nil _)

theorem fieldsWrites_mem {t : Table} {c k : Bool} {fs : List (String × ArrowType)}
    {ws : List (String × Arr)} {w : String × Arr}
    (h : fieldsWrites t c k fs = .ok ws) (hw : w ∈ ws) :
    ∃ f ∈ fs, ∃ wsf, fieldWrites t c k f = .ok wsf ∧ w ∈ wsf := by
  induction fs generalizing ws with
  | nil =>
    cases h
    exact absurd hw (List.not_mem_nil _)
  | cons f fs ih =>
    rcases hf : fieldWrites t c k f with e | wsf <;>
      rcases hfs : fieldsWrites t c k fs with e2 | ws2 <;>
        simp only [fieldsWrites, hf, hfs, Except.bind, bind] at h <;>
          cases h
    rcases List.mem_append.mp hw with hmem | hmem
    · exact ⟨f, List.mem_cons_self _ _, wsf, hf, hmem⟩
    · rcases ih hfs hmem with ⟨g, hg, wsg, hwsg, hmemg⟩
      exact ⟨g, List.mem_cons_of_mem _ hg, wsg, hwsg, hmemg⟩

theorem paTable_columns {d : ArraysDict} {t2 : Table} (h : paTable d = .ok t2) :
    t2.columns = d.map fun w => ⟨w.1, w.2.type, w.2.data⟩ := by
  rcases d with _ | ⟨e, es⟩
  · cases h
    rfl
  · unfold paTable at h
    split at h
    · rename_i heq
      exact absurd heq (by simp)
    · rename_i e' es' heq
      cases heq
      split at h
      · cases h
        rfl
      · cases h

theorem flattenNested_reduces_depth {t : Table} {c : Bool} {t2 : Table}
    (hn : hasNestedColumns t = true)
    (h : flattenNestedColumns t c false = .ok t2) :
    schemaDepth t2 + 1 ≤ schemaDepth t := by
  rcases hb : buildFlattenedArraysDict t c false with e | d
  · simp only [flattenNestedColumns, hb, Except.bind, bind] at h
    cases h
  · simp only [flattenNestedColumns, hb, Except.bind, bind] at h
    rcases hfw : fieldsWrites t c false t.schema with e2 | ws
    · rw [buildFlattenedArraysDict_eq, hfw] at hb
      cases hb
    · rw [buildFlattenedArraysDict_eq, hfw] at hb
      cases hb
      have hS := one_le_schemaDepth_of_hasNested hn
      have hcols := paTable_columns h
      have hdepth : ∀ col ∈ t2.columns, col.type.depth ≤ schemaDepth t - 1 := by
        intro col hcol
        rw [hcols] at hcol
        rcases List.mem_map.mp hcol with ⟨w, hwd, hcw⟩
        have hwws : w ∈ ws := by
          rcases mem_dictInsertMany hwd with h' | h'
          · exact h'
          · exact absurd h' (List.not_mem_nil _)
        rcases fieldsWrites_mem hfw hwws with ⟨f, hf, wsf, hwsf, hmemf⟩
        have := fieldWrites_depth_lt hn hf hwsf hmemf
        rw [← hcw]
        show w.2.type.depth ≤ schemaDepth t - 1
        omega
      have hfin := @schemaDepth_le_of_forall t2.columns _ hdepth
      have heta : schemaDepth ⟨t2.columns⟩ = schemaDepth t2 := rfl
      rw [heta] at hfin
      omega

theorem flattenAllLoop_no_fuelOut (r c : Bool) :
    ∀ fuel t, schemaDepth t ≤ fuel →
      (flattenAllLoop r c false fuel t).1 ≠ LoopResult.fuelOut := by
  intro fuel
  induction fuel with
  | zero =>
    intro t ht
    have hnn : ¬ hasNestedColumns t = true := by
      intro h
      have := one_le_schemaDepth_of_hasNested h
      omega
    rw [flattenAllLoop, if_neg hnn]
    intro h
    cases h
  | succ n ih =>
    intro t ht
    by_cases hn : hasNestedColumns t = true
    · rw [flattenAllLoop, if_pos hn]
      rcases hp : flattenNestedColumns t c false with e | t2
      · simp only
        intro h
        cases h
      · have hd := flattenNested_reduces_depth hn hp
        simp only
        cases r
        · simp only [Bool.false_eq_true, if_false]
          intro h
          cases h
        · simp only [if_true]
          exact ih t2 (by omega)
    · rw [flattenAllLoop, if_neg hn]
      intro h
      cases h

/-! Which errors can escape from where: the pass raises only `mapNullLen`
(from the map row loop) or `lengthMismatch` (from `pa.table`); the
`invalidState` error is raised only by `_validate_table_set`. -/

theorem mapCollect_error : ∀ (rows : List Value) (e : FlattenError),
    mapCollect rows = .error e → e = .mapNullLen := by
  intro rows
  induction rows with
  | nil => intro e h; cases h
  | cons r rest ih =>
    intro e h
    cases r <;> simp only [mapCollect] at h <;> try (cases h; rfl)
    rcases hm : mapCollect rest with e2 | kv
    · rw [hm] at h
      simp only [Except.bind, bind] at h
      cases h
      exact ih _ hm
    · rw [hm] at h
      simp only [Except.bind, bind] at h
      cases h

theorem flattenMapField_error {t : Table} {n : String} {kt vt : ArrowType} {c : Bool}
    {e : FlattenError} (h : flattenMapField t n kt vt c = .error e) :
    e = .mapNullLen := by
  rcases hm : mapCollect (t.columnByName n).data with e2 | kv
  · unfold flattenMapField at h
    rw [hm] at h
    simp only [Except.bind, bind] at h
    cases h
    exact mapCollect_error _ _ hm
  · unfold flattenMapField at h
    rw [hm] at h
    simp only [Except.bind, bind] at h
    cases h

theorem fieldWrites_error {t : Table} {c k : Bool} {f : String × ArrowType}
    {e : FlattenError} (h : fieldWrites t c k f = .error e) : e = .mapNullLen := by
  rcases f with ⟨n, ty⟩
  cases ty <;> try (cases h)
  rename_i kt vt
  rcases hm : flattenMapField t n kt vt c with e2 | ws
  · simp only [fieldWrites, hm, Except.bind, bind] at h
    cases h
    exact flattenMapField_error hm
  · simp only [fieldWrites, hm, Except.bind, bind] at h
    cases h

theorem fieldsWrites_error {t : Table} {c k : Bool} :
    ∀ (fs : List (String × ArrowType)) (e : FlattenError),
    fieldsWrites t c k fs = .error e → e = .mapNullLen := by
  intro fs
  induction fs with
  | nil => intro e h; cases h
  | cons f fs ih =>
    intro e h
    rcases hf : fieldWrites t c k f with e1 | ws1 <;>
      rcases hfs : fieldsWrites t c k fs with e2 | ws2 <;>
        simp only [fieldsWrites, hf, hfs, Except.bind, bind] at h <;> cases h
    · exact fieldWrites_error hf
    · exact fieldWrites_error hf
    · exact ih _ hfs

theorem paTable_error {d : ArraysDict} {e : FlattenError}
    (h : paTable d = .error e) : e = .lengthMismatch := by
  rcases d with _ | ⟨x, xs⟩
  · cases h
  · unfold paTable at h
    split at h
    · rename_i heq
      exact absurd heq (by simp)
    · rename_i x' xs' heq
      cases heq
      split at h
      · cases h
      · cases h
        rfl

theorem flattenNestedColumns_error {t : Table} {c k : Bool} {e : FlattenError}
    (h : flattenNestedColumns t c k = .error e) :
    e = .mapNullLen ∨ e = .lengthMismatch := by
  rcases hb : buildFlattenedArraysDict t c k with e1 | d
  · simp only [flattenNestedColumns, hb, Except.bind, bind] at h
    cases h
    rcases hfw : fieldsWrites t c k t.schema with e2 | ws
    · rw [buildFlattenedArraysDict_eq, hfw] at hb
      cases hb
      exact Or.inl (fieldsWrites_error _ _ hfw)
    · rw [buildFlattenedArraysDict_eq, hfw] at hb
      cases hb
  · simp only [flattenNestedColumns, hb, Except.bind, bind] at h
    exact Or.inr (paTable_error h)

theorem flattenAllLoop_ne_invalidState (r c k : Bool) :
    ∀ (fuel : Nat) (t : Table),
      (flattenAllLoop r c k fuel t).1 ≠ LoopResult.err .invalidState := by
  intro fuel
  induction fuel with
  | zero =>
    intro t
    rw [flattenAllLoop]
    split <;> (intro h; cases h)
  | succ n ih =>
    intro t
    rw [flattenAllLoop]
    split
    · rcases hp : flattenNestedColumns t c k with e | t2
      · simp only
        intro h
        cases h
        rcases flattenNestedColumns_error hp with h' | h' <;> cases h'
      · simp only
        cases r
        · simp only [Bool.false_eq_true, if_false]
          intro h
          cases h
        · simp only [if_true]
          exact ih t2
    · intro h
      cases h

theorem flattenStructLoop_ne_err (r : Bool) :
    ∀ (fuel : Nat) (t : Table) (e : FlattenError),
      (flattenStructLoop r fuel t).1 ≠ LoopResult.err e := by
  intro fuel
  induction fuel with
  | zero =>
    intro t e
    rw [flattenStructLoop]
    split <;> (intro h; cases h)
  | succ n ih =>
    intro t e
    rw [flattenStructLoop]
    split
    · cases r
      · simp only [Bool.false_eq_true, if_false]
        intro h
        cases h
      · simp only [if_true]
        exact ih (tableFlatten t) e
    · intro h
      cases h

/-! Lemmas for the idempotence claim. -/

theorem flattenAllLoop_of_no_nested (r c k : Bool) (fuel : Nat) {t : Table}
    (h : hasNestedColumns t = false) :
    flattenAllLoop r c k fuel t = (.ok t, t, []) := by
  cases fuel <;> rw [flattenAllLoop] <;> rw [if_neg (by simp [h])]

theorem flattenAllLoop_ok_no_nested {c k : Bool} :
    ∀ {fuel : Nat} {t t' : Table},
      (flattenAllLoop true c k fuel t).1 = .ok t' →
      hasNestedColumns t' = false := by
  intro fuel
  induction fuel with
  | zero =>
    intro t t' h
    rw [flattenAllLoop] at h
    by_cases hn : hasNestedColumns t = true
    · rw [if_pos hn] at h
      cases h
    · rw [if_neg hn] at h
      cases h
      simpa using hn
  | succ n ih =>
    intro t t' h
    rw [flattenAllLoop] at h
    by_cases hn : hasNestedColumns t = true
    · rw [if_pos hn] at h
      rcases hp : flattenNestedColumns t c k with e | t2 <;> rw [hp] at h
      · cases h
      · simp only [if_true] at h
        exact ih h
    · rw [if_neg hn] at h
      cases h
      simpa using hn

/-! Helpers for reasoning about one column of a well-named table. -/

/-- A table is well-named when its column names are pairwise distinct (the
tables `pa.table` builds from an `arrays_dict` always are, and
`Table.column(name)` is only well-defined then). -/
def Table.wellNamed (t : Table) : Prop :=
  (t.columns.map fun x => x.name).Nodup

theorem columnByName_eq {t : Table} {col : Column}
    (hw : t.wellNamed) (hcol : col ∈ t.columns) :
    t.columnByName col.name = col := by
  have hfind : ∀ (cols : List Column), (cols.map fun x => x.name).Nodup →
      col ∈ cols → (cols.find? fun c => c.name = col.name) = some col := by
    intro cols
    induction cols with
    | nil => intro _ h; exact absurd h (List.not_mem_nil _)
    | cons x xs ih =>
      intro hnd hmem
      simp only [List.map_cons, List.nodup_cons] at hnd
      rcases List.mem_cons.mp hmem with h | h
      · rw [h, List.find?_cons]
        simp
      · by_cases hx : x.name = col.name
        · exact absurd (by rw [hx]; exact List.mem_map.mpr ⟨col, h, rfl⟩) hnd.1
        · rw [List.find?_cons]
          have : (decide (x.name = col.name)) = false := by simp [hx]
          rw [this]
          exact ih hnd.2 h
  unfold Table.columnByName
  rw [hfind t.columns hw hcol]
  rfl

/-- Decomposing a well-named table around one of its columns: every other
column is a different column object. -/
theorem ne_of_mem_sides {pre post : List Column} {col g : Column}
    (hw : ((pre ++ col :: post).map fun x => x.name).Nodup)
    (hg : g ∈ pre ∨ g ∈ post) : g ≠ col := by
  intro hEq
  subst hEq
  rw [List.map_append, List.map_cons] at hw
  rcases List.nodup_append.mp hw with ⟨_, hnd2, hdisj⟩
  rcases hg with h | h
  · exact hdisj (List.mem_map.mpr ⟨g, h, rfl⟩) (List.mem_cons_self _ _)
  · rcases List.nodup_cons.mp hnd2 with ⟨hnotin, _⟩
    exact hnotin (List.mem_map.mpr ⟨g, h, rfl⟩)

/-- Master lemma: when the dict build succeeds on a well-named table, and no
field other than `col` ever writes the name `s`, then the binding of `s` in
the built dict is exactly the last write of `col`'s own writes for `s`. -/
theorem buildDict_lookup_unique_writer {t : Table} {c k : Bool} {col : Column}
    {d : ArraysDict} {wsF : List (String × Arr)} (s : String)
    (hw : t.wellNamed) (hcol : col ∈ t.columns)
    (hF : fieldWrites t c k (col.name, col.type) = .ok wsF)
    (hnc : ∀ g ∈ t.columns, g ≠ col → s ∉ fieldWriteNames c k (g.name, g.type))
    (hd : buildFlattenedArraysDict t c k = .ok d) :
    assocLookup d s = lastWrite wsF s := by
  rcases List.append_of_mem hcol with ⟨pre, post, hsplit⟩
  have hw' : ((pre ++ col :: post).map fun x => x.name).Nodup := by
    rw [← hsplit]
    exact hw
  have hschema : t.schema = (pre.map fun x => (x.name, x.type)) ++
      ((col.name, col.type) :: (post.map fun x => (x.name, x.type))) := by
    unfold Table.schema
    rw [hsplit, List.map_append, List.map_cons]
  rcases hfw : fieldsWrites t c k t.schema with e | ws
  · rw [buildFlattenedArraysDict_eq, hfw] at hd
    cases hd
  · rw [buildFlattenedArraysDict_eq, hfw] at hd
    cases hd
    rw [hschema] at hfw
    rw [fieldsWrites_append] at hfw
    rcases hpre : fieldsWrites t c k (pre.map fun x => (x.name, x.type)) with e1 | wsPre <;>
      rw [hpre] at hfw
    · cases hfw
    · rcases hrest : fieldsWrites t c k
          ((col.name, col.type) :: (post.map fun x => (x.name, x.type))) with e2 | wsRest <;>
        rw [hrest] at hfw
      · cases hfw
      · simp only [Except.bind, bind, Except.map] at hfw
        cases hfw
        rcases hpost : fieldsWrites t c k (post.map fun x => (x.name, x.type)) with e3 | wsPost <;>
          simp only [fieldsWrites, hF, hpost, Except.bind, bind] at hrest
        · cases hrest
        · cases hrest
          have hsides : ∀ (sideCols : List Column) (wsSide : List (String × Arr)),
              fieldsWrites t c k (sideCols.map fun x => (x.name, x.type)) = .ok wsSide →
              (∀ g ∈ sideCols, g ∈ t.columns) →
              (∀ g ∈ sideCols, g ≠ col) → lastWrite wsSide s = none := by
            intro sideCols wsSide hws hmemT hne
            apply lastWrite_eq_none
            intro w hwmem hws1
            rcases fieldsWrites_mem hws hwmem with ⟨f, hf, wsf, hwsf, hmemf⟩
            rcases List.mem_map.mp hf with ⟨g, hgmem, hgeq⟩
            have hnames := fieldWrites_names t c k f wsf hwsf
            have hsin : s ∈ fieldWriteNames c k f := by
              rw [← hnames, ← hws1]
              exact List.mem_map.mpr ⟨w, hmemf, rfl⟩
            rw [← hgeq] at hsin
            exact hnc g (hmemT g hgmem) (hne g hgmem) hsin
          have hP : lastWrite wsPre s = none := by
            apply hsides pre wsPre hpre
            · intro g hg
              rw [hsplit]
              exact List.mem_append.mpr (Or.inl hg)
            · intro g hg
              exact ne_of_mem_sides hw' (Or.inl hg)
          have hQ : lastWrite wsPost s = none := by
            apply hsides post wsPost hpost
            · intro g hg
              rw [hsplit]
              exact List.mem_append.mpr (Or.inr (List.mem_cons_of_mem _ hg))
            · intro g hg
              exact ne_of_mem_sides hw' (Or.inr hg)
          rw [assocLookup_dictInsertMany, lastWrite_append, lastWrite_append, hQ, hP]
          rcases lastWrite wsF s with _ | v <;> simp [assocLookup]

/-! Claim theorems. -/

/-- A one-column table whose struct column makes
`flatten_all_columns(recursive=true, keep_nested_columns=true)` run forever. -/
def keepLoopTable : Table :=
  ⟨[⟨"s", .struct [("a", .int64)], [.structV [.int 1]]⟩]⟩

/-- The fixed point the loop reaches after one pass on `keepLoopTable`: the
kept struct column plus its flattened child; a further pass reproduces it
exactly, so the `while` condition stays true forever. -/
def keepLoopFix : Table :=
  ⟨[⟨"s", .struct [("a", .int64)], [.structV [.int 1]]⟩,
    ⟨"a", .int64, [.int 1]⟩]⟩

set_option maxHeartbeats 1600000 in
/-- C1, counterexample: the claim "the loop always terminates, in particular
with recursive=true and keep_nested_columns=true" is false.  On
`keepLoopTable` (one struct column, keep_nested_columns=true,
recursive=true), every pass keeps the nested struct column, so no amount of
fuel makes the loop exit: `flatten_all_columns` loops forever. -/
theorem C1_counterexample : ¬ flattenTerminates true false true keepLoopTable := by
  have hfix : ∀ n, (flattenAllLoop true false true n keepLoopFix).1 =
      LoopResult.fuelOut := by
    intro n
    induction n with
    | zero => rfl
    | succ m ih => exact ih
  intro h
  rcases h with ⟨fuel, hfuel⟩
  apply hfuel
  cases fuel with
  | zero => rfl
  | succ m => exact hfix m

/-- C1, amended: whenever `keep_nested_columns` is false or `recursive` is
false, the loop of `flatten_all_columns` terminates (returning or raising),
and the number of passes is bounded by the schema's nesting depth, because
each `keep_nested_columns = false` pass strictly reduces that depth. -/
theorem C1_amended_terminates (r c k : Bool) (t : Table) (h : k = false ∨ r = false) :
    (flattenAllLoop r c k (schemaDepth t) t).1 ≠ LoopResult.fuelOut := by
  rcases h with rfl | rfl
  · exact flattenAllLoop_no_fuelOut r c (schemaDepth t) t (Nat.le_refl _)
  · rcases hd : schemaDepth t with _ | m
    · have hnn : ¬ hasNestedColumns t = true := by
        intro hn
        have := one_le_schemaDepth_of_hasNested hn
        omega
      rw [flattenAllLoop, if_neg hnn]
      intro hcon
      cases hcon
    · rw [flattenAllLoop]
      split
      · rcases hp : flattenNestedColumns t c k with e | t2 <;>
          · simp only
            intro hcon
            cases hcon
      · intro hcon
        cases hcon

/-- Table used to instantiate the amended C1 theorem. -/
def listDemoTable : Table := ⟨[⟨"xs", .list .int64, [.listV [.int 1]]⟩]⟩

/-- Witness for the amended C1 theorem at a concrete table and flags. -/
theorem C1_amended_terminates_witness :
    (flattenAllLoop true true false (schemaDepth listDemoTable) listDemoTable).1 ≠
      LoopResult.fuelOut :=
  C1_amended_terminates true true false listDemoTable (Or.inl rfl)

/-- Map column with a null second row: the failing input for C2. -/
def mapNullRowTable : Table :=
  ⟨[⟨"m", .map .string .int64, [.mapV [(.str "x", .int 1)], .null]⟩]⟩

/-- The same map column without the null row. -/
def mapOkTable : Table :=
  ⟨[⟨"m", .map .string .int64,
     [.mapV [(.str "x", .int 1), (.str "y", .int 0)],
      .mapV [(.str "a", .int 2), (.str "b", .int 45)]]⟩]⟩

set_option maxHeartbeats 1600000 in
/-- C2, code bug: a flatten pass over a map column with a null row does not
contribute zero entries for that row — it raises (the `is not None` guard
never fires on pyarrow scalars, and `len` of a null map scalar is a
`TypeError`).  On null-free map columns the expansion law does hold: keys and
values have equal length, the sum of per-row entry counts, in stored order
(2 + 2 entries here). -/
theorem C2_map_null_row_bug :
    buildFlattenedArraysDict mapNullRowTable true false = .error .mapNullLen ∧
    buildFlattenedArraysDict mapOkTable true false =
      .ok [("m.keys", ⟨.string, [.str "x", .str "y", .str "a", .str "b"]⟩),
           ("m.values", ⟨.int64, [.int 1, .int 0, .int 2, .int 45]⟩)] :=
  ⟨rfl, rfl⟩

/-- One-row map column with a duplicate key: the failing input for C3. -/
def mapDupKeyTable : Table :=
  ⟨[⟨"m", .map .string .int64, [.mapV [(.str "a", .int 1), (.str "a", .int 2)]]⟩]⟩

set_option maxHeartbeats 1600000 in
/-- C3, code bug: the `dtype_mapping` entry for maps is keyed by `pa.map_`,
the type *constructor function*, which equals no column data type, so
`dtype_mapping.get` misses for a map-typed column and `to_pandas_safe` falls
through to the library's default conversion — each row stays its stored
key/value-pair sequence instead of becoming the per-row last-wins dict the
spec describes (shown by `specMapColumnToDicts`, the spec-modelled handler). -/
theorem C3_map_handler_never_applied :
    dtypeMappingGet (.map .string .int64) = none ∧
    toPandasSafe mapDupKeyTable =
      [⟨"m", [.defaultObj (.mapV [(.str "a", .int 1), (.str "a", .int 2)])]⟩] ∧
    specMapColumnToDicts [.mapV [(.str "a", .int 1), (.str "a", .int 2)]] =
      [.pyDict [(.str "a", .int 2)]] ∧
    PdValue.defaultObj (.mapV [(.str "a", .int 1), (.str "a", .int 2)]) ≠
      PdValue.pyDict [(.str "a", .int 2)] := by
  refine ⟨rfl, rfl, rfl, ?_⟩
  intro h
  cases h

/-- C4: a flatten pass replaces a list-typed column by a single column under
the original field name — the `pc.list_flatten` concatenation of its rows
(row-major, within-row order, inner nulls kept, null/empty rows contributing
nothing) — and the flattened length is the sum of per-row list lengths.
Stated for any flag combination; the collision-freedom hypothesis rules out
other fields overwriting this output name. -/
theorem C4_list_pass (t : Table) (c k : Bool) (col : Column) (elemType : ArrowType)
    (d : ArraysDict)
    (hw : t.wellNamed) (hcol : col ∈ t.columns) (hty : col.type = .list elemType)
    (hnc : ∀ g ∈ t.columns, g ≠ col → col.name ∉ fieldWriteNames c k (g.name, g.type))
    (hd : buildFlattenedArraysDict t c k = .ok d) :
    assocLookup d col.name = some ⟨elemType, listFlatten col.data⟩ ∧
    (listFlatten col.data).length =
      (col.data.map fun r => match r with | .listV xs => xs.length | _ => 0).sum := by
  constructor
  · have hcbn : t.columnByName col.name = col := columnByName_eq hw hcol
    have hF : fieldWrites t c k (col.name, ArrowType.list elemType) =
        .ok ((if k then [(col.name, ⟨ArrowType.list elemType, col.data⟩)] else []) ++
             [(col.name, ⟨elemType, listFlatten col.data⟩)]) := by
      cases k <;>
        simp [fieldWrites, flattenListField, ArrowType.isNested, hcbn, Except.bind, bind]
    have hF' : fieldWrites t c k (col.name, col.type) =
        .ok ((if k then [(col.name, ⟨ArrowType.list elemType, col.data⟩)] else []) ++
             [(col.name, ⟨elemType, listFlatten col.data⟩)]) := by
      rw [hty]
      exact hF
    rw [buildDict_lookup_unique_writer col.name hw hcol hF' hnc hd, lastWrite_append]
    have hone : lastWrite [(col.name, ⟨elemType, listFlatten col.data⟩)] col.name =
        some ⟨elemType, listFlatten col.data⟩ := by
      simp [lastWrite]
    rw [hone]
  · have hlen : ∀ rows : List Value, (listFlatten rows).length =
        (rows.map fun r => match r with | .listV xs => xs.length | _ => 0).sum := by
      have hstep : ∀ (r : Value) (rest : List Value), listFlatten (r :: rest) =
          (match r with | Value.listV xs => xs | _ => []) ++ listFlatten rest := by
        intro r rest
        cases r <;> rfl
      intro rows
      induction rows with
      | nil => rfl
      | cons r rest ih =>
        rw [hstep]
        cases r <;> simp [ih]
    exact hlen col.data

/-- The table of the spec's nullability example: `[[1], [null], [5]]`. -/
def listNullElemTable : Table :=
  ⟨[⟨"xs", .list .int64, [.listV [.int 1], .listV [.null], .listV [.int 5]]⟩]⟩

set_option maxHeartbeats 1600000 in
/-- Witness for C4 at the spec's `[[1], [null], [5]]` example: the pass
yields the single 3-element column `[1, null, 5]`, inner null preserved. -/
theorem C4_list_pass_witness :
    assocLookup ([("xs", ⟨.int64, [.int 1, .null, .int 5]⟩)] : ArraysDict) "xs" =
      some ⟨.int64, listFlatten [.listV [.int 1], .listV [.null], .listV [.int 5]]⟩ ∧
    (listFlatten [.listV [.int 1], .listV [.null], .listV [.int 5]]).length =
      (([.listV [.int 1], .listV [.null], .listV [.int 5]] : List Value).map
        fun r => match r with | .listV xs => xs.length | _ => 0).sum :=
  C4_list_pass listNullElemTable false false
    ⟨"xs", .list .int64, [.listV [.int 1], .listV [.null], .listV [.int 5]]⟩ .int64
    ([("xs", ⟨.int64, [.int 1, .null, .int 5]⟩)] : ArraysDict)
    (by simp [Table.wellNamed, listNullElemTable])
    (List.mem_singleton_self _) rfl
    (fun g hg hne => absurd (List.mem_singleton.mp hg) hne)
    rfl

/-- C5: a flatten pass turns a struct-typed column into exactly one output
column per sub-field — the i-th bound in the dict to the struct's stored
i-th sub-field array (row for row, nulls included, as `structChild`
describes) — named `parent.subfield` when `composite_names` is true and the
bare sub-field name otherwise.  The hypotheses ask for the usual
collision-freedom: the names this field writes are pairwise distinct and no
other field writes them. -/
theorem C5_struct_pass (t : Table) (c k : Bool) (col : Column)
    (subs : List (String × ArrowType)) (d : ArraysDict)
    (hw : t.wellNamed) (hcol : col ∈ t.columns) (hty : col.type = .struct subs)
    (hnodup : (fieldWriteNames c k (col.name, col.type)).Nodup)
    (hnc : ∀ g ∈ t.columns, g ≠ col →
      ∀ s ∈ generateSubfieldNames col.name subs c,
        s ∉ fieldWriteNames c k (g.name, g.type))
    (hd : buildFlattenedArraysDict t c k = .ok d) :
    ∀ i, i < subs.length →
      assocLookup d ((generateSubfieldNames col.name subs c).getD i "") =
        some ⟨(subs.getD i ("", .nullType)).2, structChild i col.data⟩ ∧
      (generateSubfieldNames col.name subs c).getD i "" =
        (if c then col.name ++ "." ++ (subs.getD i ("", .nullType)).1
         else (subs.getD i ("", .nullType)).1) := by
  intro i hi
  have hcbn : t.columnByName col.name = col := columnByName_eq hw hcol
  have hlenN : (generateSubfieldNames col.name subs c).length = subs.length := by
    unfold generateSubfieldNames
    split <;> simp
  have hnameD : (generateSubfieldNames col.name subs c).getD i "" =
      (if c then col.name ++ "." ++ (subs.getD i ("", .nullType)).1
       else (subs.getD i ("", .nullType)).1) := by
    have hiN : i < (generateSubfieldNames col.name subs c).length := by omega
    rw [List.getD_eq_getElem _ _ hiN, List.getD_eq_getElem _ _ hi]
    unfold generateSubfieldNames
    rcases c with _ | _ <;> simp
  refine ⟨?_, hnameD⟩
  have hFS : flattenStructField t col.name subs c =
      (generateSubfieldNames col.name subs c).zip (structChildArrs col.data subs) := by
    unfold flattenStructField
    rw [hcbn]
  have hF : fieldWrites t c k (col.name, ArrowType.struct subs) =
      .ok ((if k then [(col.name, ⟨ArrowType.struct subs, col.data⟩)] else []) ++
           (generateSubfieldNames col.name subs c).zip (structChildArrs col.data subs)) := by
    cases k <;>
      simp [fieldWrites, ArrowType.isNested, hcbn, hFS, Except.bind, bind]
  have hF' : fieldWrites t c k (col.name, col.type) =
      .ok ((if k then [(col.name, ⟨ArrowType.struct subs, col.data⟩)] else []) ++
           (generateSubfieldNames col.name subs c).zip (structChildArrs col.data subs)) := by
    rw [hty]
    exact hF
  have hlenA : (structChildArrs col.data subs).length = subs.length := by
    simp [structChildArrs]
  have hiZ : i < ((generateSubfieldNames col.name subs c).zip
      (structChildArrs col.data subs)).length := by
    rw [List.length_zip, hlenN, hlenA]
    simp [hi]
  have hzi : ((generateSubfieldNames col.name subs c).zip
        (structChildArrs col.data subs))[i] =
      ((generateSubfieldNames col.name subs c).getD i "",
       ⟨(subs.getD i ("", .nullType)).2, structChild i col.data⟩) := by
    rw [List.getElem_zip]
    have hiN : i < (generateSubfieldNames col.name subs c).length := by omega
    have hiA : i < (structChildArrs col.data subs).length := by omega
    congr 1
    · rw [List.getD_eq_getElem _ _ hiN]
    · show (structChildArrs col.data subs)[i] = _
      unfold structChildArrs
      rw [List.getElem_map, List.getElem_range]
  have hmem : ((generateSubfieldNames col.name subs c).getD i "",
      (⟨(subs.getD i ("", .nullType)).2, structChild i col.data⟩ : Arr)) ∈
      (if k then [(col.name, ⟨ArrowType.struct subs, col.data⟩)] else []) ++
        (generateSubfieldNames col.name subs c).zip (structChildArrs col.data subs) := by
    apply List.mem_append.mpr
    right
    rw [← hzi]
    exact List.getElem_mem _
  have hnodup' : (((if k then [(col.name, (⟨ArrowType.struct subs, col.data⟩ : Arr))] else []) ++
      (generateSubfieldNames col.name subs c).zip
        (structChildArrs col.data subs)).map fun w => w.1).Nodup := by
    rw [fieldWrites_names t c k (col.name, col.type) _ hF']
    exact hnodup
  have hnc' : ∀ g ∈ t.columns, g ≠ col →
      (generateSubfieldNames col.name subs c).getD i "" ∉
        fieldWriteNames c k (g.name, g.type) := by
    intro g hg hne
    apply hnc g hg hne
    have hiN : i < (generateSubfieldNames col.name subs c).length := by omega
    rw [List.getD_eq_getElem _ _ hiN]
    exact List.getElem_mem _
  rw [buildDict_lookup_unique_writer _ hw hcol hF' hnc' hd]
  exact lastWrite_of_nodup hnodup' hmem

/-- The spec §8 end-to-end example table. -/
def personTable : Table := ⟨[
  ⟨"id", .int64, [.int 1, .int 2]⟩,
  ⟨"person", .struct [("name", .string), ("age", .int64)],
    [.structV [.str "Alice", .int 30], .structV [.str "Bob", .int 25]]⟩,
  ⟨"simple_list", .list .int64, [.listV [.int 1], .listV [.int 5]]⟩]⟩

/-- The column of `personTable` holding the struct. -/
def personCol : Column :=
  ⟨"person", .struct [("name", .string), ("age", .int64)],
   [.structV [.str "Alice", .int 30], .structV [.str "Bob", .int 25]]⟩

/-- The arrays dict one pass builds from `personTable` with composite names. -/
def personDict : ArraysDict :=
  [("id", ⟨.int64, [.int 1, .int 2]⟩),
   ("person.name", ⟨.string, [.str "Alice", .str "Bob"]⟩),
   ("person.age", ⟨.int64, [.int 30, .int 25]⟩),
   ("simple_list", ⟨.int64, [.int 1, .int 5]⟩)]

set_option maxHeartbeats 3200000 in
/-- Witness for C5 on the spec §8 example, sub-field 0 with composite names:
the pass binds `person.name` to the stored `name` sub-field array. -/
theorem C5_struct_pass_witness :
    assocLookup personDict
        ((generateSubfieldNames "person" [("name", .string), ("age", .int64)] true).getD 0 "") =
      some ⟨.string, structChild 0 personCol.data⟩ ∧
    (generateSubfieldNames "person" [("name", .string), ("age", .int64)] true).getD 0 "" =
      (if true then "person" ++ "." ++ "name" else "name") :=
  C5_struct_pass personTable true false personCol
    [("name", .string), ("age", .int64)] personDict
    (by simp [Table.wellNamed, personTable])
    (by unfold personTable personCol; exact List.mem_cons_of_mem _ (List.mem_cons_self _ _))
    rfl
    (by decide)
    (by
      intro g hg hne s hs
      unfold personTable at hg
      simp only [generateSubfieldNames, if_true, List.map_cons, List.map_nil,
        List.mem_cons, List.not_mem_nil, or_false] at hs
      rcases List.mem_cons.mp hg with h | h
      · subst h
        rcases hs with rfl | rfl <;> decide
      rcases List.mem_cons.mp h with h | h
      · exact absurd h hne
      rcases List.mem_cons.mp h with h | h
      · subst h
        rcases hs with rfl | rfl <;> decide
      · exact absurd h (List.not_mem_nil _))
    rfl 0 (by decide)

/-- One list column, for the C6 counterexample. -/
def listKeepTable : Table := ⟨[⟨"xs", .list .int64, [.listV [.int 1, .int 2]]⟩]⟩

set_option maxHeartbeats 1600000 in
/-- C6, counterexample: with `keep_nested_columns = true` a LIST field does
not yield both the original column and its flattened child — the child
reuses the original name, so the later write overwrites the kept original
and the pass output holds exactly one column under `xs`: the flattened
int64 array, not the original list column. -/
theorem C6_counterexample :
    buildFlattenedArraysDict listKeepTable false true =
      .ok [("xs", ⟨.int64, [.int 1, .int 2]⟩)] ∧
    assocLookup ([("xs", ⟨.int64, [.int 1, .int 2]⟩)] : ArraysDict) "xs" ≠
      some ⟨.list .int64, [.listV [.int 1, .int 2]]⟩ := by
  refine ⟨rfl, ?_⟩
  intro h
  injection h with h1
  injection h1 with h2 h3
  cases h2

/-- With `keep_nested_columns = true` the copy write always comes first:
processing any field starts by writing the original column under its own
name. -/
theorem fieldWrites_keep_head {t : Table} {c : Bool} {f : String × ArrowType}
    {ws : List (String × Arr)} (h : fieldWrites t c true f = .ok ws) :
    ∃ rest, ws = (f.1, ⟨f.2, (t.columnByName f.1).data⟩) :: rest := by
  rcases f with ⟨n, ty⟩
  cases ty <;> try (cases h; exact ⟨_, rfl⟩)
  rename_i kt vt
  rcases hm : flattenMapField t n kt vt c with e | ws2 <;>
    simp only [fieldWrites, hm, Except.bind, bind] at h
  · cases h
  · cases h
    exact ⟨_, rfl⟩

/-- C6, amended: with `keep_nested_columns = true`, a nested field whose
produced names are pairwise distinct (which holds for struct and map fields
whose child names differ from the parent name, and never for list fields,
whose single child write reuses the parent name) and collide with no other
field's outputs yields **both** the original column under its original name
and every flattened child, each bound to its written array. -/
theorem C6_amended_keep_nested (t : Table) (c : Bool) (col : Column)
    (ws : List (String × Arr)) (d : ArraysDict)
    (hw : t.wellNamed) (hcol : col ∈ t.columns)
    (hws : fieldWrites t c true (col.name, col.type) = .ok ws)
    (hnodup : (ws.map fun w => w.1).Nodup)
    (hnc : ∀ g ∈ t.columns, g ≠ col →
      ∀ s ∈ ws.map (fun w => w.1), s ∉ fieldWriteNames c true (g.name, g.type))
    (hd : buildFlattenedArraysDict t c true = .ok d) :
    (∀ w ∈ ws, assocLookup d w.1 = some w.2) ∧
    assocLookup d col.name = some ⟨col.type, col.data⟩ ∧
    (col.name, (⟨col.type, col.data⟩ : Arr)) ∈ ws := by
  have hcbn : t.columnByName col.name = col := columnByName_eq hw hcol
  have hall : ∀ w ∈ ws, assocLookup d w.1 = some w.2 := by
    intro w hwmem
    have hnc' : ∀ g ∈ t.columns, g ≠ col →
        w.1 ∉ fieldWriteNames c true (g.name, g.type) := by
      intro g hg hne
      exact hnc g hg hne w.1 (List.mem_map.mpr ⟨w, hwmem, rfl⟩)
    rw [buildDict_lookup_unique_writer w.1 hw hcol hws hnc' hd]
    exact lastWrite_of_nodup hnodup hwmem
  rcases fieldWrites_keep_head hws with ⟨rest, hwseq⟩
  rw [hcbn] at hwseq
  have hhead : (col.name, (⟨col.type, col.data⟩ : Arr)) ∈ ws := by
    rw [hwseq]
    exact List.mem_cons_self _ _
  exact ⟨hall, hall _ hhead, hhead⟩

/-- One struct column kept next to its composite-named child. -/
def structKeepTable : Table :=
  ⟨[⟨"s", .struct [("a", .int64)], [.structV [.int 1]]⟩]⟩

set_option maxHeartbeats 3200000 in
/-- Witness for the amended C6 on a struct column with composite names and
`keep_nested_columns = true`: both the original `s` column and its child
`s.a` are in the produced dict. -/
theorem C6_amended_keep_nested_witness :
    assocLookup
        ([("s", ⟨.struct [("a", .int64)], [.structV [.int 1]]⟩),
          ("s.a", ⟨.int64, [.int 1]⟩)] : ArraysDict) "s" =
      some ⟨.struct [("a", .int64)], [.structV [.int 1]]⟩ ∧
    assocLookup
        ([("s", ⟨.struct [("a", .int64)], [.structV [.int 1]]⟩),
          ("s.a", ⟨.int64, [.int 1]⟩)] : ArraysDict) "s.a" =
      some ⟨.int64, [.int 1]⟩ := by
  have happ := C6_amended_keep_nested structKeepTable true
    ⟨"s", .struct [("a", .int64)], [.structV [.int 1]]⟩
    [("s", ⟨.struct [("a", .int64)], [.structV [.int 1]]⟩), ("s.a", ⟨.int64, [.int 1]⟩)]
    ([("s", ⟨.struct [("a", .int64)], [.structV [.int 1]]⟩),
      ("s.a", ⟨.int64, [.int 1]⟩)] : ArraysDict)
    (by simp [Table.wellNamed, structKeepTable])
    (List.mem_singleton_self _)
    rfl
    (by decide)
    (fun g hg hne => absurd (List.mem_singleton.mp hg) hne)
    rfl
  exact ⟨happ.2.1, happ.1 _ (List.mem_cons_of_mem _ (List.mem_cons_self _ _))⟩

/-- Modelled from the spec: the fixed correspondence §4.2 prescribes between
the twelve supported primitive engine types and nullable dataframe dtypes,
with every other type outside the mapping.  Compared below against the
source's `dtype_mapping`-based lookup. -/
def supportedPrimitiveDtype : ArrowType → Option PandasDtype
  | .int8 => some .Int8
  | .int16 => some .Int16
  | .int32 => some .Int32
  | .int64 => some .Int64
  | .uint8 => some .UInt8
  | .uint16 => some .UInt16
  | .uint32 => some .UInt32
  | .uint64 => some .UInt64
  | .boolean => some .Boolean
  | .float32 => some .Float32
  | .float64 => some .Float64
  | .string => some .StringDtype
  | _ => none

/-- The `mapToDictFunction` entry of the mapping is unreachable through the
`types_mapper`: no column data type equals the `pa.map_` constructor key. -/
theorem dtypeMappingGet_ne_mapToDict (ty : ArrowType) :
    dtypeMappingGet ty ≠ some .mapToDictFunction := by
  cases ty <;> (intro h; cases h)

/-- C7: `to_pandas_safe` converts every column whose type is one of the 12
supported primitives with the corresponding nullable extension dtype — so a
null cell becomes the proper missing-value marker `NA`, never a sentinel or
float upcast — and every column whose type is outside the mapping (nested
types, the null type, and in particular map types) with the library's
default inference. -/
theorem C7_nullable_dtype_mapping (t : Table) (col : Column) (hcol : col ∈ t.columns) :
    (∀ dt, supportedPrimitiveDtype col.type = some dt →
      toPandasSafeColumn col = ⟨col.name, nullableConvert dt col.data⟩ ∧
      ∀ i : Nat, col.data[i]? = some Value.null →
        (nullableConvert dt col.data)[i]? = some PdValue.NA) ∧
    (supportedPrimitiveDtype col.type = none →
      toPandasSafeColumn col = ⟨col.name, defaultConvert col.data⟩) ∧
    toPandasSafeColumn col ∈ toPandasSafe t := by
  refine ⟨?_, ?_, List.mem_map.mpr ⟨col, hcol, rfl⟩⟩
  · intro dt hdt
    constructor
    · rcases col with ⟨n, ty, data⟩
      cases ty <;> cases hdt <;> rfl
    · intro i hnull
      have hmap : (nullableConvert dt col.data)[i]? =
          (col.data[i]?).map fun v =>
            match v with | .null => PdValue.NA | v => .scalar dt v := by
        unfold nullableConvert
        exact List.getElem?_map _ _ _
      rw [hmap, hnull]
      rfl
  · intro hnone
    rcases col with ⟨n, ty, data⟩
    cases ty <;> first | rfl | cases hnone

/-- A one-column int64 table with a null cell, to instantiate C7. -/
def int64NullTable : Table := ⟨[⟨"x", .int64, [.int 3, .null]⟩]⟩

/-- Witness for C7: the int64 column with a null converts under the nullable
Int64 dtype, and its null cell is `NA` in the output. -/
theorem C7_nullable_dtype_mapping_witness :
    toPandasSafeColumn ⟨"x", .int64, [.int 3, .null]⟩ =
      ⟨"x", nullableConvert .Int64 [.int 3, .null]⟩ ∧
    (nullableConvert .Int64 [.int 3, .null])[1]? = some PdValue.NA := by
  have happ := C7_nullable_dtype_mapping int64NullTable ⟨"x", .int64, [.int 3, .null]⟩
    (List.mem_singleton_self _)
  rcases (happ.1 .Int64 rfl) with ⟨h1, h2⟩
  exact ⟨h1, h2 1 rfl⟩

/-- C8: after a successful `flatten_all_columns(recursive=true)` the result
has no nested-typed field at all — in particular no struct-, list- or
map-typed field — and a second full run on that result is a no-op: the loop
takes zero passes, logs nothing, and returns the same table with schema and
data unchanged, for any fuel. -/
theorem C8_full_flatten_idempotent (c k : Bool) (fuel : Nat) (t t2 : Table)
    (h : (flattenAllLoop true c k fuel t).1 = .ok t2) :
    hasNestedColumns t2 = false ∧
    (∀ col ∈ t2.columns, col.type.isStruct = false ∧ col.type.isList = false ∧
      col.type.isMap = false) ∧
    ∀ fuel2, flattenAllLoop true c k fuel2 t2 = (.ok t2, t2, []) := by
  have h1 : hasNestedColumns t2 = false := flattenAllLoop_ok_no_nested h
  refine ⟨h1, ?_, fun fuel2 => flattenAllLoop_of_no_nested true c k fuel2 h1⟩
  intro col hcol
  have hnn : col.type.isNested = false := by
    by_cases hb : col.type.isNested = true
    · have : hasNestedColumns t2 = true := List.any_eq_true.mpr ⟨col, hcol, hb⟩
      rw [this] at h1
      cases h1
    · simpa using hb
  rcases hty : col.type <;> rw [hty] at hnn <;>
    first
      | exact ⟨rfl, rfl, rfl⟩
      | simp [ArrowType.isNested] at hnn

/-- The flat table that one recursive run produces from `personTable`. -/
def flatPersonTable : Table := ⟨[
  ⟨"id", .int64, [.int 1, .int 2]⟩,
  ⟨"person.name", .string, [.str "Alice", .str "Bob"]⟩,
  ⟨"person.age", .int64, [.int 30, .int 25]⟩,
  ⟨"simple_list", .int64, [.int 1, .int 5]⟩]⟩

set_option maxHeartbeats 3200000 in
/-- Witness for C8: flattening the spec §8 table with fuel 2 returns
`flatPersonTable`; it has no nested field and re-running the loop on it with
any fuel (here 1) is a no-op. -/
theorem C8_full_flatten_idempotent_witness :
    hasNestedColumns flatPersonTable = false ∧
    flattenAllLoop true true false 1 flatPersonTable =
      (.ok flatPersonTable, flatPersonTable, []) :=
  ⟨(C8_full_flatten_idempotent true false 2 personTable flatPersonTable rfl).1,
   (C8_full_flatten_idempotent true false 2 personTable flatPersonTable rfl).2.2 1⟩

/-- C9: `flatten_all_columns` and `flatten_struct_columns` fail with the
invalid-state error exactly when no table has been set; on that path an
error log line is emitted before failing, the held state is unchanged and no
table is returned; with a table set, neither operation ever produces that
error. -/
theorem C9_invalid_state_guard (fuel : Nat) (r c k : Bool)
    (fl : PyArrowTableFlattener) :
    ((flattenAllColumns fl r c k fuel).1 = LoopResult.err .invalidState ↔
      fl.table = none) ∧
    ((flattenStructColumns fl r fuel).1 = LoopResult.err .invalidState ↔
      fl.table = none) ∧
    (fl.table = none →
      flattenAllColumns fl r c k fuel =
        (LoopResult.err .invalidState, fl, [⟨.error, "No table set for flattening."⟩]) ∧
      flattenStructColumns fl r fuel =
        (LoopResult.err .invalidState, fl, [⟨.error, "No table set for flattening."⟩])) := by
  rcases fl with ⟨_ | t⟩
  · exact ⟨⟨fun _ => rfl, fun _ => rfl⟩, ⟨fun _ => rfl, fun _ => rfl⟩,
      fun _ => ⟨rfl, rfl⟩⟩
  · refine ⟨⟨fun h => ?_, fun h => by cases h⟩,
      ⟨fun h => ?_, fun h => by cases h⟩, fun h => by cases h⟩
    · exact absurd h (flattenAllLoop_ne_invalidState r c k fuel t)
    · exact absurd h (flattenStructLoop_ne_err r fuel t .invalidState)

/-- Witness for C9: with no table set, `flatten_all_columns` fails with the
invalid-state error. -/
theorem C9_invalid_state_guard_witness :
    (flattenAllColumns ⟨none⟩ true true true 1).1 = LoopResult.err .invalidState :=
  (C9_invalid_state_guard 1 true true true ⟨none⟩).1.mpr rfl

/-- C10: a field whose type is nested in the engine's sense but is none of
struct, list or map (a large list, a fixed-size list, ...) is silently
dropped by a `keep_nested_columns = false` pass: processing it performs no
dict write at all, and (absent collisions from other fields) the pass output
has no column under its name. -/
theorem C10_unhandled_nested_dropped (t : Table) (c : Bool) (col : Column)
    (d : ArraysDict)
    (hcol : col ∈ t.columns) (hw : t.wellNamed)
    (hnested : col.type.isNested = true)
    (hns : col.type.isStruct = false) (hnl : col.type.isList = false)
    (hnm : col.type.isMap = false)
    (hnc : ∀ g ∈ t.columns, g ≠ col → col.name ∉ fieldWriteNames c false (g.name, g.type))
    (hd : buildFlattenedArraysDict t c false = .ok d) :
    fieldWrites t c false (col.name, col.type) = .ok [] ∧
    assocLookup d col.name = none := by
  have hF : fieldWrites t c false (col.name, col.type) = .ok [] := by
    rcases hty : col.type <;> rw [hty] at hnested hns hnl hnm <;>
      first
        | rfl
        | simp [ArrowType.isNested, ArrowType.isStruct, ArrowType.isList,
            ArrowType.isMap] at hnested hns hnl hnm
  refine ⟨hF, ?_⟩
  rw [buildDict_lookup_unique_writer col.name hw hcol hF hnc hd]
  rfl

/-- A one-column large-list table: its only column vanishes in one pass. -/
def largeListTable : Table := ⟨[⟨"big", .largeList .int64, [.listV [.int 1]]⟩]⟩

set_option maxHeartbeats 1600000 in
/-- Witness for C10: the large-list column is neither copied nor flattened —
the pass output of `largeListTable` is the empty dict. -/
theorem C10_unhandled_nested_dropped_witness :
    fieldWrites largeListTable true false ("big", .largeList .int64) = .ok [] ∧
    assocLookup ([] : ArraysDict) "big" = none :=
  C10_unhandled_nested_dropped largeListTable true
    ⟨"big", .largeList .int64, [.listV [.int 1]]⟩ []
    (List.mem_singleton_self _)
    (by simp [Table.wellNamed, largeListTable])
    rfl rfl rfl rfl
    (fun g hg hne => absurd (List.mem_singleton.mp hg) hne)
    rfl

end PyArrowPandas
